import Mathlib

/-!
Verification of the `kv` log-structured key→value store (src/lib.rs).

The store is embedded shallowly:

* The on-disk log is a `List String` of record lines (one line per record,
  without the trailing newline that `writeln!` emits and `BufRead::lines`
  strips).
* The injected serde_json codec for the element type `T` is a `Codec T`
  with an encoder `enc` (`serde_json::to_string` of a value of `T`) and a
  decoder `dec` (`serde_json::from_str`, returning the error's display
  string on failure).  serde_json serializes `Option<T>` as the literal
  `null` for `None` and as the bare inner encoding for `Some`, and
  deserializes `Option<T>` by mapping the literal `null` to `None` and
  deserializing `T` otherwise; `encodeOption` / `decodeOption` state this.
* Fallible operations return `Except Error _`; mutation of the file is
  explicit state passing, so `set`/`unset` return the new log on success.
-/

deriving instance DecidableEq for Except

namespace Kv

/-- The error enum of src/lib.rs: `Read`, `Write` and `InvalidKey`, each
carrying its message or the offending key text. -/
inductive Error where
  | Read (msg : String)
  | Write (msg : String)
  | InvalidKey (key : String)
deriving DecidableEq

/-- `line_error` of src/lib.rs: the read error produced for a malformed
line, naming the zero-based line number and the line content. -/
def line_error (lineNumber : Nat) (line : String) : Error :=
  Error.Read ("Invalid data as line " ++ toString lineNumber ++ ": `" ++ line ++ "`")

/-- Splits a character list at the first comma: `none` when no comma
occurs; otherwise the characters before it and the characters after it.
This is the content of Rust's `line.splitn(2, ',')` yielding two items. -/
def splitFirstComma : List Char → Option (List Char × List Char)
  | [] => none
  | c :: cs =>
    if c = ',' then some ([], cs)
    else
      match splitFirstComma cs with
      | none => none
      | some (k, v) => some (c :: k, v)

/-- `split_key_value` of src/lib.rs: splits a line on the first comma into
(key, value text); a line with no comma fails with `line_error`. -/
def split_key_value (line : String) (lineNumber : Nat) : Except Error (String × String) :=
  match splitFirstComma line.data with
  | none => .error (line_error lineNumber line)
  | some (k, v) => .ok (String.mk k, String.mk v)

/-- The character class of `validate_key` in src/lib.rs:
`'0'..='9' | 'A'..='Z' | 'a'..='z' | ' ' | ':' | '/' | '.'`. -/
def validChar (c : Char) : Bool :=
  decide (('0' ≤ c ∧ c ≤ '9') ∨ ('A' ≤ c ∧ c ≤ 'Z') ∨ ('a' ≤ c ∧ c ≤ 'z')
    ∨ c = ' ' ∨ c = ':' ∨ c = '/' ∨ c = '.')

/-- `validate_key` of src/lib.rs: accepts the key iff every character is in
the fixed allowlist, otherwise fails with `InvalidKey` carrying the key. -/
def validate_key (key : String) : Except Error String :=
  if key.data.all validChar then .ok key else .error (Error.InvalidKey key)

/-- The injected value codec: models serde_json's `Serialize`/`Deserialize`
for the element type `T`.  `enc v` is `serde_json::to_string(&v)`; `dec s`
is `serde_json::from_str::<T>(s)`, with the error's display string. -/
structure Codec (T : Type) where
  enc : T → String
  dec : String → Except String T

/-- serde_json serialization of `Option<T>`: `None` is the literal `null`,
`Some v` is the bare encoding of `v`. -/
def encodeOption (enc : T → String) : Option T → String
  | none => "null"
  | some v => enc v

/-- serde_json deserialization of `Option<T>`: the literal `null` is
`None`; any other text is deserialized as `T`.  (Value texts in the log
carry no surrounding whitespace, so the null test is string equality.) -/
def decodeOption (dec : String → Except String T) (s : String) : Except String (Option T) :=
  if s = "null" then .ok none
  else
    match dec s with
    | .error e => .error e
    | .ok v => .ok (some v)

/-- The codec serde_json derives for `Option<T>` from a codec for `T`,
e.g. the element type `Option<bool>` of a `Store<Option<bool>>`. -/
def optionCodec (c : Codec T) : Codec (Option T) :=
  ⟨encodeOption c.enc, decodeOption c.dec⟩

/-- The serde_json codec at element type `bool`: `true`/`false` literals. -/
def boolCodec : Codec Bool :=
  ⟨fun b => if b then "true" else "false",
   fun s =>
    if s = "true" then .ok true
    else if s = "false" then .ok false
    else .error ("invalid value: " ++ s)⟩

/-- The tombstone literal: `serde_json::to_string(&Option::<u8>::None)`,
written by `unset` and compared against by `contains`. -/
def tombstone : String := "null"

/-- The log file as scanned by `BufRead::lines`: the list of record lines
in append order. -/
abbrev Log := List String

/-- The loop body of `Store::scan` in src/lib.rs: starting at line number
`n` with accumulator `out`, split each line, feed it to the reducer `f`,
and propagate the first error; line numbers increase by one per line. -/
def scanLines (f : String → String → Output → Except Error Output) :
    Nat → Output → Log → Except Error Output
  | _, out, [] => .ok out
  | n, out, line :: rest =>
    match split_key_value line n with
    | .error e => .error e
    | .ok (k, v) =>
      match f k v out with
      | .error e => .error e
      | .ok out => scanLines f (n + 1) out rest

/-- `Store::set`: validate the key, then append the line
`key ++ "," ++ serde_json::to_string(&Some(value))`. -/
def set (c : Codec T) (log : Log) (key : String) (v : T) : Except Error Log :=
  match validate_key key with
  | .error e => .error e
  | .ok key => .ok (log ++ [key ++ "," ++ encodeOption c.enc (some v)])

/-- `Store::unset`: validate the key, then append the tombstone line
`key ++ "," ++ "null"`; independent of the element type. -/
def unset (log : Log) (key : String) : Except Error Log :=
  match validate_key key with
  | .error e => .error e
  | .ok key => .ok (log ++ [key ++ "," ++ tombstone])

/-- The reducer closure of `Store::contains`: on each record whose key
matches, overwrite the accumulator with `value text != "null"`. -/
def containsStep (key k v : String) (acc : Bool) : Except Error Bool :=
  .ok (if k = key then v ≠ tombstone else acc)

/-- `Store::contains`: validate the key, then scan with `containsStep`;
the accumulator starts at `bool::default()`, i.e. `false`. -/
def contains (log : Log) (key : String) : Except Error Bool :=
  match validate_key key with
  | .error e => .error e
  | .ok key => scanLines (containsStep key) 0 false log

/-- The reducer closure of `Store::get`: on each record whose key matches,
overwrite the accumulator with `serde_json::from_str::<Option<T>>` of the
value text, failing the scan with a read error when decoding fails. -/
def getStep (c : Codec T) (key k v : String) (acc : Option T) : Except Error (Option T) :=
  if k = key then
    match decodeOption c.dec v with
    | .error e => .error (Error.Read e)
    | .ok x => .ok x
  else .ok acc

/-- `Store::get`: validate the key, then scan with `getStep`; the
accumulator starts at `Option::default()`, i.e. `None`. -/
def get (c : Codec T) (log : Log) (key : String) : Except Error (Option T) :=
  match validate_key key with
  | .error e => .error e
  | .ok key => scanLines (getStep c key) 0 none log

/-- Insert for the in-memory map of `load_map` (`FxHashMap::insert` as a
mapping): replace the entry with the given key, or append a new one. -/
def mapInsert (k : String) (v : T) : List (String × T) → List (String × T)
  | [] => [(k, v)]
  | p :: rest => if p.1 = k then (k, v) :: rest else p :: mapInsert k v rest

/-- Removal for the in-memory map of `load_map` (`FxHashMap::remove` as a
mapping): drop the entries with the given key. -/
def mapRemove (k : String) (m : List (String × T)) : List (String × T) :=
  m.filter (fun p => p.1 ≠ k)

/-- Lookup in the in-memory map (the mapping denoted by the `FxHashMap`). -/
def mapLookup (k : String) : List (String × T) → Option T
  | [] => none
  | p :: rest => if p.1 = k then some p.2 else mapLookup k rest

/-- The reducer closure of `Store::load_map`: decode each record's value
text as `Option<T>` (failing the scan with a read error on a decode
failure); a live record inserts its key, a tombstone removes it. -/
def loadStep (c : Codec T) (k v : String) (m : List (String × T)) :
    Except Error (List (String × T)) :=
  match decodeOption c.dec v with
  | .error e => .error (Error.Read e)
  | .ok (some x) => .ok (mapInsert k x m)
  | .ok none => .ok (mapRemove k m)

/-- `Store::load_map`: scan the whole log with `loadStep`; the accumulator
starts at the empty map. -/
def load_map (c : Codec T) (log : Log) : Except Error (List (String × T)) :=
  scanLines (loadStep c) 0 [] log

/-- One client operation on a store handle. -/
inductive Op (T : Type) where
  | setOp (key : String) (v : T)
  | unsetOp (key : String)

/-- Run one operation against the log through the store's public surface. -/
def applyOp (c : Codec T) (log : Log) : Op T → Except Error Log
  | .setOp k v => set c log k v
  | .unsetOp k => unset log k

/-- Run a sequence of operations on a single store handle, stopping at the
first error. -/
def applyOps (c : Codec T) : Log → List (Op T) → Except Error Log
  | log, [] => .ok log
  | log, op :: ops =>
    match applyOp c log op with
    | .error e => .error e
    | .ok log => applyOps c log ops

/-- The last-write-wins denotation of an operation sequence for one key:
the value of the last `set` on that key, absent after a later `unset`. -/
def lwStep (key : String) (acc : Option T) : Op T → Option T
  | .setOp k v => if k = key then some v else acc
  | .unsetOp k => if k = key then none else acc

/-- The value text of the last record for a key in a record list. -/
def lastValue (key : String) (pairs : List (String × String)) : Option String :=
  pairs.foldl (fun acc p => if p.1 = key then some p.2 else acc) none

/-- A record rendered as its log line: key, comma, value text. -/
def renderRecord (p : String × String) : String := p.1 ++ "," ++ p.2

/-- A record list rendered as a log. -/
def render (pairs : List (String × String)) : Log := pairs.map renderRecord

/-! ### Basic facts about validation and record splitting -/

theorem validate_key_ok_iff {key : String} :
    validate_key key = .ok key ↔ key.data.all validChar = true := by
  unfold validate_key
  split <;> simp_all

theorem validate_key_ok_elim {key k' : String} (h : validate_key key = .ok k') :
    k' = key ∧ key.data.all validChar = true := by
  unfold validate_key at h
  split at h
  · exact ⟨(Except.ok.injEq _ _).mp h |>.symm, by assumption⟩
  · exact absurd h (by simp)

theorem validate_key_comma_free {key : String} (h : validate_key key = .ok key) :
    ',' ∉ key.data := by
  intro hc
  have hall := validate_key_ok_iff.mp h
  have hcomma := List.all_eq_true.mp hall _ hc
  exact absurd hcomma (by decide)

theorem splitFirstComma_of_not_mem {k : List Char} (hk : ',' ∉ k) (v : List Char) :
    splitFirstComma (k ++ ',' :: v) = some (k, v) := by
  induction k with
  | nil => simp [splitFirstComma]
  | cons c cs ih =>
    have hc : ¬ c = ',' := fun h => hk (by simp [h])
    have hcs : ',' ∉ cs := fun h => hk (List.mem_cons_of_mem _ h)
    simp [splitFirstComma, hc, ih hcs]

theorem splitFirstComma_eq_none {cs : List Char} (h : ',' ∉ cs) :
    splitFirstComma cs = none := by
  induction cs with
  | nil => rfl
  | cons c cs ih =>
    have hc : ¬ c = ',' := fun hh => h (by simp [hh])
    have hcs : ',' ∉ cs := fun hh => h (List.mem_cons_of_mem _ hh)
    simp [splitFirstComma, hc, ih hcs]

theorem data_append_comma (k v : String) :
    (k ++ "," ++ v).data = k.data ++ ',' :: v.data := by
  simp [String.data_append]

theorem split_key_value_render {k : String} (hk : ',' ∉ k.data) (v : String) (n : Nat) :
    split_key_value (k ++ "," ++ v) n = .ok (k, v) := by
  simp [split_key_value, data_append_comma, splitFirstComma_of_not_mem hk]

theorem split_key_value_no_comma {line : String} (h : ',' ∉ line.data) (n : Nat) :
    split_key_value line n = .error (line_error n line) := by
  simp [split_key_value, splitFirstComma_eq_none h]

/-! ### Facts about the scan loop -/

theorem scanLines_append (f : String → String → Output → Except Error Output)
    (l₁ l₂ : Log) (n : Nat) (acc : Output) :
    scanLines f n acc (l₁ ++ l₂) =
      match scanLines f n acc l₁ with
      | .error e => .error e
      | .ok acc2 => scanLines f (n + l₁.length) acc2 l₂ := by
  induction l₁ generalizing n acc with
  | nil => simp [scanLines]
  | cons line rest ih =>
    simp only [List.cons_append, scanLines]
    cases hs : split_key_value line n with
    | error e => rfl
    | ok kv =>
      obtain ⟨k, v⟩ := kv
      cases hf : f k v acc with
      | error e => simp [hf]
      | ok acc1 =>
        have harith : n + 1 + rest.length = n + (rest.length + 1) := by omega
        simp [hf, ih, harith]

/-! ### Facts about the in-memory map of `load_map` -/

theorem mapLookup_mapInsert (k key : String) (v : T) (m : List (String × T)) :
    mapLookup key (mapInsert k v m) = if k = key then some v else mapLookup key m := by
  induction m with
  | nil => simp [mapInsert, mapLookup]
  | cons p rest ih =>
    by_cases h1 : p.1 = k
    · simp only [mapInsert, h1, if_pos rfl, mapLookup]
      split_ifs with h2 <;> simp_all [mapLookup]
    · simp only [mapInsert, h1, if_neg h1, mapLookup]
      split_ifs with h2 <;> simp_all [mapLookup, ih]

theorem mapLookup_mapRemove (k key : String) (m : List (String × T)) :
    mapLookup key (mapRemove k m) = if k = key then none else mapLookup key m := by
  induction m with
  | nil => simp [mapRemove, mapLookup]
  | cons p rest ih =>
    by_cases h1 : p.1 = k
    · simp only [mapRemove, List.filter_cons] at *
      split_ifs with h2 <;> simp_all [mapLookup]
    · simp only [mapRemove, List.filter_cons] at *
      split_ifs with h2 <;> simp_all [mapLookup]

/-! ### The scan of `load_map` simulates the scan of `get` -/

theorem loadScan_getScan (c : Codec T) (key : String) :
    ∀ (log : Log) (n : Nat) (m₀ m : List (String × T)),
      scanLines (loadStep c) n m₀ log = .ok m →
      scanLines (getStep c key) n (mapLookup key m₀) log = .ok (mapLookup key m)
  | [], n, m₀, m, h => by
    simp only [scanLines] at h ⊢
    cases h
    rfl
  | line :: rest, n, m₀, m, h => by
    simp only [scanLines] at h ⊢
    cases hs : split_key_value line n with
    | error e => rw [hs] at h; exact absurd h (by simp)
    | ok kv =>
      obtain ⟨k, v⟩ := kv
      rw [hs] at h
      simp only at h ⊢
      cases hd : decodeOption c.dec v with
      | error e =>
        rw [loadStep, hd] at h
        exact absurd h (by simp)
      | ok x =>
        cases x with
        | some t =>
          rw [loadStep, hd] at h
          simp only at h
          have hnext := loadScan_getScan c key rest (n + 1) (mapInsert k t m₀) m h
          by_cases hkk : k = key
          · rw [getStep, if_pos hkk, hd]
            simpa [mapLookup_mapInsert, hkk] using hnext
          · rw [getStep, if_neg hkk]
            simpa [mapLookup_mapInsert, hkk] using hnext
        | none =>
          rw [loadStep, hd] at h
          simp only at h
          have hnext := loadScan_getScan c key rest (n + 1) (mapRemove k m₀) m h
          by_cases hkk : k = key
          · rw [getStep, if_pos hkk, hd]
            simpa [mapLookup_mapRemove, hkk] using hnext
          · rw [getStep, if_neg hkk]
            simpa [mapLookup_mapRemove, hkk] using hnext

/-! ### Totality and completeness of the individual scans -/

theorem containsScan_ok (key : String) :
    ∀ (log : Log) (n : Nat) (acc : Bool),
      (∀ line ∈ log, (splitFirstComma line.data).isSome) →
      ∃ b, scanLines (containsStep key) n acc log = .ok b
  | [], n, acc, _ => ⟨acc, rfl⟩
  | line :: rest, n, acc, hsplit => by
    obtain ⟨⟨kcs, vcs⟩, hkv⟩ :=
      Option.isSome_iff_exists.mp (hsplit line (List.mem_cons_self _ _))
    have hs : split_key_value line n = .ok (String.mk kcs, String.mk vcs) := by
      simp [split_key_value, hkv]
    obtain ⟨b, hb⟩ := containsScan_ok key rest (n + 1)
      (if String.mk kcs = key then !decide (String.mk vcs = tombstone) else acc)
      (fun l hl => hsplit l (List.mem_cons_of_mem _ hl))
    exact ⟨b, by simp [scanLines, hs, containsStep, hb]⟩

theorem loadScan_ok_or_read (c : Codec T) :
    ∀ (log : Log) (n : Nat) (m₀ : List (String × T)),
      (∀ line ∈ log, (splitFirstComma line.data).isSome) →
      (∃ m, scanLines (loadStep c) n m₀ log = .ok m) ∨
      (∃ s, scanLines (loadStep c) n m₀ log = .error (Error.Read s))
  | [], n, m₀, _ => .inl ⟨m₀, rfl⟩
  | line :: rest, n, m₀, hsplit => by
    obtain ⟨⟨kcs, vcs⟩, hkv⟩ :=
      Option.isSome_iff_exists.mp (hsplit line (List.mem_cons_self _ _))
    have hs : split_key_value line n = .ok (String.mk kcs, String.mk vcs) := by
      simp [split_key_value, hkv]
    cases hd : decodeOption c.dec (String.mk vcs) with
    | error e =>
      exact .inr ⟨e, by simp [scanLines, hs, loadStep, hd]⟩
    | ok x =>
      have hrest := fun l hl => hsplit l (List.mem_cons_of_mem _ hl)
      cases x with
      | some t =>
        rcases loadScan_ok_or_read c rest (n + 1) (mapInsert (String.mk kcs) t m₀) hrest with
          ⟨m, hm⟩ | ⟨s, hsr⟩
        · exact .inl ⟨m, by simp [scanLines, hs, loadStep, hd, hm]⟩
        · exact .inr ⟨s, by simp [scanLines, hs, loadStep, hd, hsr]⟩
      | none =>
        rcases loadScan_ok_or_read c rest (n + 1) (mapRemove (String.mk kcs) m₀) hrest with
          ⟨m, hm⟩ | ⟨s, hsr⟩
        · exact .inl ⟨m, by simp [scanLines, hs, loadStep, hd, hm]⟩
        · exact .inr ⟨s, by simp [scanLines, hs, loadStep, hd, hsr]⟩

theorem loadScan_decodes (c : Codec T) :
    ∀ (log : Log) (n : Nat) (m₀ m : List (String × T)),
      scanLines (loadStep c) n m₀ log = .ok m →
      ∀ line ∈ log, ∀ kcs vcs, splitFirstComma line.data = some (kcs, vcs) →
        ∃ x, decodeOption c.dec (String.mk vcs) = .ok x
  | [], _, _, _, _ => by intro line hline; exact absurd hline (by simp)
  | line :: rest, n, m₀, m, h => by
    intro l hl kcs vcs hkv
    simp only [scanLines] at h
    rcases List.mem_cons.mp hl with rfl | hmem
    · rw [split_key_value, hkv] at h
      simp only at h
      cases hd : decodeOption c.dec (String.mk vcs) with
      | error e => rw [loadStep, hd] at h; exact absurd h (by simp)
      | ok x => exact ⟨x, rfl⟩
    · cases hs : split_key_value line n with
      | error e => rw [hs] at h; exact absurd h (by simp)
      | ok kv =>
        obtain ⟨k, v⟩ := kv
        rw [hs] at h
        simp only at h
        cases hd : decodeOption c.dec v with
        | error e => rw [loadStep, hd] at h; exact absurd h (by simp)
        | ok x =>
          rw [loadStep, hd] at h
          cases x with
          | some t =>
            exact loadScan_decodes c rest (n + 1) (mapInsert k t m₀) m h l hmem kcs vcs hkv
          | none =>
            exact loadScan_decodes c rest (n + 1) (mapRemove k m₀) m h l hmem kcs vcs hkv

theorem getScan_decodes (c : Codec T) (key : String) :
    ∀ (log : Log) (n : Nat) (acc r : Option T),
      scanLines (getStep c key) n acc log = .ok r →
      ∀ line ∈ log, ∀ kcs vcs, splitFirstComma line.data = some (kcs, vcs) →
        String.mk kcs = key →
        ∃ x, decodeOption c.dec (String.mk vcs) = .ok x
  | [], _, _, _, _ => by intro line hline; exact absurd hline (by simp)
  | line :: rest, n, acc, r, h => by
    intro l hl kcs vcs hkv hkey
    simp only [scanLines] at h
    rcases List.mem_cons.mp hl with rfl | hmem
    · rw [split_key_value, hkv] at h
      simp only at h
      cases hd : decodeOption c.dec (String.mk vcs) with
      | error e => rw [getStep, if_pos hkey, hd] at h; exact absurd h (by simp)
      | ok x => exact ⟨x, rfl⟩
    · cases hs : split_key_value line n with
      | error e => rw [hs] at h; exact absurd h (by simp)
      | ok kv =>
        obtain ⟨k, v⟩ := kv
        rw [hs] at h
        simp only at h
        cases hf : getStep c key k v acc with
        | error e => rw [hf] at h; exact absurd h (by simp)
        | ok acc1 =>
          rw [hf] at h
          exact getScan_decodes c key rest (n + 1) acc1 r h l hmem kcs vcs hkv hkey

theorem getScan_ok (c : Codec T) (key : String) :
    ∀ (log : Log) (n : Nat) (acc : Option T),
      (∀ line ∈ log, (splitFirstComma line.data).isSome) →
      (∀ line ∈ log, ∀ kcs vcs, splitFirstComma line.data = some (kcs, vcs) →
        String.mk kcs = key → ∃ x, decodeOption c.dec (String.mk vcs) = .ok x) →
      ∃ r, scanLines (getStep c key) n acc log = .ok r
  | [], n, acc, _, _ => ⟨acc, rfl⟩
  | line :: rest, n, acc, hsplit, hdec => by
    obtain ⟨⟨kcs, vcs⟩, hkv⟩ :=
      Option.isSome_iff_exists.mp (hsplit line (List.mem_cons_self _ _))
    have hs : split_key_value line n = .ok (String.mk kcs, String.mk vcs) := by
      simp [split_key_value, hkv]
    have hrest₁ := fun l hl => hsplit l (List.mem_cons_of_mem _ hl)
    have hrest₂ := fun l hl => hdec l (List.mem_cons_of_mem _ hl)
    by_cases hkk : String.mk kcs = key
    · obtain ⟨x, hx⟩ := hdec line (List.mem_cons_self _ _) kcs vcs hkv hkk
      obtain ⟨r, hr⟩ := getScan_ok c key rest (n + 1) x hrest₁ hrest₂
      exact ⟨r, by simp [scanLines, hs, getStep, if_pos hkk, hx, hr]⟩
    · obtain ⟨r, hr⟩ := getScan_ok c key rest (n + 1) acc hrest₁ hrest₂
      exact ⟨r, by simp [scanLines, hs, getStep, if_neg hkk, hr]⟩

/-! ### Last write wins -/

theorem get_applyOp (c : Codec T)
    (hrt : ∀ w, c.dec (c.enc w) = .ok w)
    (hnc : ∀ w, c.enc w ≠ tombstone)
    (key : String)
    (log₀ log₁ : Log) (acc₀ : Option T)
    (h0 : scanLines (getStep c key) 0 none log₀ = .ok acc₀)
    (op : Op T) (h : applyOp c log₀ op = .ok log₁) :
    scanLines (getStep c key) 0 none log₁ = .ok (lwStep key acc₀ op) := by
  cases op with
  | setOp k v =>
    simp only [applyOp, set] at h
    cases hv : validate_key k with
    | error e => rw [hv] at h; exact absurd h (by simp)
    | ok k' =>
      rw [hv] at h
      simp only [Except.ok.injEq] at h
      have hke := (validate_key_ok_elim hv).1
      rw [hke] at hv h
      have hcf : ',' ∉ k.data := validate_key_comma_free hv
      subst h
      rw [scanLines_append, h0]
      simp only
      rw [scanLines, split_key_value_render hcf]
      simp only [lwStep]
      by_cases hkk : k = key
      · rw [getStep, if_pos hkk]
        have henc : encodeOption c.enc (some v) = c.enc v := rfl
        have hnull : ¬ c.enc v = "null" := hnc v
        rw [henc, decodeOption, if_neg hnull, hrt v]
        simp [scanLines, hkk]
      · rw [getStep, if_neg hkk]
        simp [scanLines, hkk]
  | unsetOp k =>
    simp only [applyOp, unset] at h
    cases hv : validate_key k with
    | error e => rw [hv] at h; exact absurd h (by simp)
    | ok k' =>
      rw [hv] at h
      simp only [Except.ok.injEq] at h
      have hke := (validate_key_ok_elim hv).1
      rw [hke] at hv h
      have hcf : ',' ∉ k.data := validate_key_comma_free hv
      subst h
      rw [scanLines_append, h0]
      simp only
      rw [scanLines, split_key_value_render hcf]
      simp only [lwStep]
      by_cases hkk : k = key
      · rw [getStep, if_pos hkk]
        have ht : tombstone = "null" := rfl
        rw [decodeOption, if_pos ht]
        simp [scanLines, hkk]
      · rw [getStep, if_neg hkk]
        simp [scanLines, hkk]

theorem applyOps_get (c : Codec T)
    (hrt : ∀ w, c.dec (c.enc w) = .ok w)
    (hnc : ∀ w, c.enc w ≠ tombstone)
    (key : String) :
    ∀ (ops : List (Op T)) (log₀ log : Log) (acc₀ : Option T),
      scanLines (getStep c key) 0 none log₀ = .ok acc₀ →
      applyOps c log₀ ops = .ok log →
      scanLines (getStep c key) 0 none log = .ok (ops.foldl (lwStep key) acc₀)
  | [], log₀, log, acc₀, h0, h => by
    simp only [applyOps, Except.ok.injEq] at h
    subst h
    simpa using h0
  | op :: ops, log₀, log, acc₀, h0, h => by
    simp only [applyOps] at h
    cases ha : applyOp c log₀ op with
    | error e => rw [ha] at h; exact absurd h (by simp)
    | ok log₁ =>
      rw [ha] at h
      simp only [List.foldl_cons]
      exact applyOps_get c hrt hnc key ops log₁ log (lwStep key acc₀ op)
        (get_applyOp c hrt hnc key log₀ log₁ acc₀ h0 op ha) h

/-! ### The contains scan over well-formed record lists -/

/-- Whether an optional last record value denotes a live entry: the value
text exists and differs from the tombstone literal. -/
def liveBool (o : Option String) : Bool :=
  match o with
  | some v => !decide (v = tombstone)
  | none => false

theorem containsScan_render (key : String) :
    ∀ (pairs : List (String × String)), (∀ p ∈ pairs, ',' ∉ p.1.data) →
      ∀ (n : Nat) (acc : Bool),
        scanLines (containsStep key) n acc (render pairs) =
          .ok (pairs.foldl (fun a p => if p.1 = key then !decide (p.2 = tombstone) else a) acc)
  | [], _, n, acc => rfl
  | p :: rest, hp, n, acc => by
    obtain ⟨k, v⟩ := p
    have hcf : ',' ∉ k.data := hp (k, v) (List.mem_cons_self _ _)
    have hrest := fun q hq => hp q (List.mem_cons_of_mem _ hq)
    have ih := containsScan_render key rest hrest (n + 1)
      (if k = key then !decide (v = tombstone) else acc)
    simp only [render, List.map_cons, renderRecord] at *
    rw [scanLines, split_key_value_render hcf]
    simp [containsStep, ih, render]

theorem foldl_liveBool (key : String) :
    ∀ (pairs : List (String × String)) (accOpt : Option String),
      pairs.foldl (fun a p => if p.1 = key then !decide (p.2 = tombstone) else a)
          (liveBool accOpt) =
        liveBool (pairs.foldl (fun acc p => if p.1 = key then some p.2 else acc) accOpt)
  | [], _ => rfl
  | p :: rest, accOpt => by
    by_cases h : p.1 = key
    · simp only [List.foldl_cons, if_pos h]
      exact foldl_liveBool key rest (some p.2)
    · simp only [List.foldl_cons, if_neg h]
      exact foldl_liveBool key rest accOpt

/-! ### Claim theorems -/

/-- Claim C4: the key validator accepts exactly the strings all of whose
characters are in {digit, upper, lower, space, colon, slash, dot}, rejects
every string containing a character outside this set (comma and newline
included), and accepts the empty string. -/
theorem validate_key_spec :
    (∀ s : String, validate_key s = .ok s ↔ ∀ ch ∈ s.data, validChar ch = true) ∧
    (∀ s : String, (∃ ch ∈ s.data, validChar ch = false) →
      validate_key s = .error (Error.InvalidKey s)) ∧
    validate_key "" = .ok "" ∧
    validChar ',' = false ∧ validChar '\n' = false ∧
    (∀ ch : Char, validChar ch = true ↔
      (('0' ≤ ch ∧ ch ≤ '9') ∨ ('A' ≤ ch ∧ ch ≤ 'Z') ∨ ('a' ≤ ch ∧ ch ≤ 'z')
        ∨ ch = ' ' ∨ ch = ':' ∨ ch = '/' ∨ ch = '.')) := by
  refine ⟨?_, ?_, by decide, by decide, by decide, ?_⟩
  · intro s
    rw [validate_key_ok_iff, List.all_eq_true]
  · rintro s ⟨ch, hmem, hch⟩
    have hall : ¬ s.data.all validChar = true := by
      rw [List.all_eq_true]
      intro hforall
      rw [hforall ch hmem] at hch
      exact absurd hch (by decide)
    simp [validate_key, hall]
  · intro ch
    rw [validChar, decide_eq_true_iff]

/-- Witness for C4: the spec's example key `bad,key` is rejected with
`InvalidKey` carrying the key text. -/
theorem validate_key_spec_witness :
    validate_key "bad,key" = .error (Error.InvalidKey "bad,key") :=
  validate_key_spec.2.1 "bad,key" ⟨',', by decide, by decide⟩

/-- Claim C5: record decoding splits a line on the first comma only:
`a,b` decodes to (`a`,`b`), `a,b,c` decodes to (`a`,`b,c`), and in general
a comma-free key followed by a comma and any value text (commas allowed)
decodes to that key and value text. -/
theorem split_on_first_comma (k v : String) (n : Nat) (hk : ',' ∉ k.data) :
    split_key_value (k ++ "," ++ v) n = .ok (k, v) ∧
    split_key_value "a,b" 0 = .ok ("a", "b") ∧
    split_key_value "a,b,c" 0 = .ok ("a", "b,c") :=
  ⟨split_key_value_render hk v n, by decide, by decide⟩

/-- Witness for C5 at key `a` and comma-carrying value text `b,c`. -/
theorem split_on_first_comma_witness :
    split_key_value ("a" ++ "," ++ "b,c") 0 = .ok ("a", "b,c") :=
  (split_on_first_comma "a" "b,c" 0 (by decide)).1

/-- Claim C6: a line with no comma aborts the scan of `get`, `contains`
and `load_map` with a `Read` error naming the zero-based line number and
the offending line content. -/
theorem malformed_line_aborts (c : Codec T) (line : String) (n : Nat) (rest : Log)
    (key : String) (hline : ',' ∉ line.data) (hk : validate_key key = .ok key) :
    split_key_value line n =
      .error (Error.Read ("Invalid data as line " ++ toString n ++ ": `" ++ line ++ "`")) ∧
    get c (line :: rest) key = .error (line_error 0 line) ∧
    contains (line :: rest) key = .error (line_error 0 line) ∧
    load_map c (line :: rest) = .error (line_error 0 line) := by
  refine ⟨split_key_value_no_comma hline n, ?_, ?_, ?_⟩
  · simp only [get, hk]
    rw [scanLines, split_key_value_no_comma hline 0]
  · simp only [contains, hk]
    rw [scanLines, split_key_value_no_comma hline 0]
  · simp only [load_map]
    rw [scanLines, split_key_value_no_comma hline 0]

/-- Witness for C6: the spec's scenario S7, a log pre-seeded with the line
`garbage` makes `get("k")` fail identifying line zero and the content. -/
theorem malformed_line_aborts_witness :
    get boolCodec ["garbage"] "k" =
      .error (Error.Read "Invalid data as line 0: `garbage`") :=
  (malformed_line_aborts boolCodec "garbage" 0 [] "k" (by decide) (by decide)).2.1

/-- Claim C7: every key-accepting operation rejects an invalid key with
`InvalidKey` carrying the offending key text; the result is an error for
every log, so no record is appended and no scan is performed. -/
theorem invalid_key_rejected (c : Codec T) (log : Log) (key : String) (v : T)
    (h : key.data.all validChar = false) :
    set c log key v = .error (Error.InvalidKey key) ∧
    unset log key = .error (Error.InvalidKey key) ∧
    get c log key = .error (Error.InvalidKey key) ∧
    contains log key = .error (Error.InvalidKey key) := by
  have hv : validate_key key = .error (Error.InvalidKey key) := by
    simp [validate_key, h]
  exact ⟨by simp [set, hv], by simp [unset, hv], by simp [get, hv], by simp [contains, hv]⟩

/-- Witness for C7: the spec's scenario S6, `set("bad,key", _)` fails with
`InvalidKey("bad,key")` (shown on a non-empty log, which is untouched). -/
theorem invalid_key_rejected_witness :
    set boolCodec ["k,true"] "bad,key" true = .error (Error.InvalidKey "bad,key") :=
  (invalid_key_rejected boolCodec ["k,true"] "bad,key" true (by decide)).1

/-- Claim C1: last-write-wins.  For a codec satisfying the value contract
(round-trip, the tombstone literal never emitted for a live value) and a
valid key, any sequence of set/unset operations on a single store handle
makes `get` return the fold of the operations on that key: the value of
the last `set` unless a later `unset` occurred (then absent), regardless
of intervening writes to other keys. -/
theorem last_write_wins (c : Codec T)
    (hrt : ∀ w, c.dec (c.enc w) = .ok w)
    (hnc : ∀ w, c.enc w ≠ tombstone)
    (key : String) (hk : validate_key key = .ok key)
    (log₀ log : Log) (acc₀ : Option T)
    (h0 : get c log₀ key = .ok acc₀)
    (ops : List (Op T)) (h : applyOps c log₀ ops = .ok log) :
    get c log key = .ok (ops.foldl (lwStep key) acc₀) := by
  simp only [get, hk] at h0 ⊢
  exact applyOps_get c hrt hnc key ops log₀ log acc₀ h0 h

/-- Witness for C1: from an empty log, `set k true; set x false; unset k;
set k false` makes `get k` return the value of the last set of `k`. -/
theorem last_write_wins_witness :
    get boolCodec ["k,true", "x,false", "k,null", "k,false"] "k" = .ok (some false) := by
  have h := last_write_wins boolCodec (fun w => by cases w <;> decide)
    (fun w => by cases w <;> decide) "k" (by decide)
    [] ["k,true", "x,false", "k,null", "k,false"] none (by decide)
    [Op.setOp "k" true, Op.setOp "x" false, Op.unsetOp "k", Op.setOp "k" false]
    (by decide)
  simpa [lwStep] using h

/-- Counterexample to claim C2: at element type `Option bool` (serde_json
encodes an inner `None` as `null`), `set` of the value `none` writes
exactly the tombstone line that `unset` writes, and the record is
interpreted as a deletion: `contains` is false and `get` absent after it. -/
theorem set_none_writes_tombstone :
    set (optionCodec boolCodec) [] "k" (none : Option Bool) = .ok ["k,null"] ∧
    unset ([] : Log) "k" = .ok ["k,null"] ∧
    contains ["k,null"] "k" = .ok false ∧
    get (optionCodec boolCodec) ["k,null"] "k" = .ok none :=
  ⟨by decide, by decide, by decide, by decide⟩

/-- Amended claim C2: when the injected codec never encodes a live value
as the tombstone literal (as the default codec does for element types
without a null-encoding value), the record written by `set` is textually
distinct from the tombstone and is never interpreted as a deletion:
`contains` right after the `set` reports the key live. -/
theorem set_distinct_from_tombstone (c : Codec T)
    (hnc : ∀ w, c.enc w ≠ tombstone)
    (key : String) (hk : validate_key key = .ok key)
    (log : Log) (v : T) (b : Bool)
    (hc : contains log key = .ok b) :
    set c log key v = .ok (log ++ [key ++ "," ++ c.enc v]) ∧
    encodeOption c.enc (some v) ≠ tombstone ∧
    contains (log ++ [key ++ "," ++ c.enc v]) key = .ok true := by
  refine ⟨by simp [set, hk, encodeOption], hnc v, ?_⟩
  simp only [contains, hk] at hc ⊢
  rw [scanLines_append, hc]
  simp only
  rw [scanLines, split_key_value_render (validate_key_comma_free hk)]
  simp [containsStep, scanLines, hnc v]

/-- Witness for C2's amended claim at the bool codec. -/
theorem set_distinct_from_tombstone_witness :
    set boolCodec [] "k" true = .ok ([] ++ ["k" ++ "," ++ boolCodec.enc true]) ∧
    encodeOption boolCodec.enc (some true) ≠ tombstone ∧
    contains ([] ++ ["k" ++ "," ++ boolCodec.enc true]) "k" = .ok true :=
  set_distinct_from_tombstone boolCodec (fun w => by cases w <;> decide)
    "k" (by decide) [] true false (by decide)

/-- Claim C3: `unset` followed by `get` returns absent and `contains`
returns false; on a well-formed log, `contains` returns true exactly when
the last record for the key has a value text other than the tombstone
literal, and false when the key has no record. -/
theorem unset_get_contains (c : Codec T) (key : String)
    (hk : validate_key key = .ok key)
    (log log' : Log) (r : Option T) (b : Bool)
    (hg : get c log key = .ok r)
    (hc : contains log key = .ok b)
    (hu : unset log key = .ok log')
    (pairs : List (String × String))
    (hp : ∀ p ∈ pairs, ',' ∉ p.1.data) :
    get c log' key = .ok none ∧
    contains log' key = .ok false ∧
    contains (render pairs) key = .ok (liveBool (lastValue key pairs)) := by
  have hcf : ',' ∉ key.data := validate_key_comma_free hk
  simp only [unset, hk, Except.ok.injEq] at hu
  subst hu
  refine ⟨?_, ?_, ?_⟩
  · simp only [get, hk] at hg ⊢
    rw [scanLines_append, hg]
    simp only
    rw [scanLines, split_key_value_render hcf]
    have ht : tombstone = "null" := rfl
    simp [getStep, decodeOption, ht, scanLines]
  · simp only [contains, hk] at hc ⊢
    rw [scanLines_append, hc]
    simp only
    rw [scanLines, split_key_value_render hcf]
    simp [containsStep, scanLines]
  · simp only [contains, hk]
    rw [containsScan_render key pairs hp 0 false]
    have hfold := foldl_liveBool key pairs none
    simp only [liveBool] at hfold
    rw [hfold]
    rfl

/-- Witness for C3: the spec's scenario S3 shape, on a log holding one
live record for `k`. -/
theorem unset_get_contains_witness :
    get boolCodec ["k,true", "k,null"] "k" = .ok none ∧
    contains ["k,true", "k,null"] "k" = .ok false ∧
    contains (render [("k", "true"), ("k", "null")]) "k" =
      .ok (liveBool (lastValue "k" [("k", "true"), ("k", "null")])) := by
  have h := unset_get_contains boolCodec "k" (by decide)
    ["k,true"] ["k,true", "k,null"] (some true) true
    (by decide) (by decide) (by decide)
    [("k", "true"), ("k", "null")] (by decide)
  simpa using h

/-- Claim C8: `load_map` agrees with `get` as a mapping: whenever
`load_map` succeeds, `get` on any valid key succeeds and returns exactly
the map's entry for that key (absent when the last record was a tombstone
or no record exists). -/
theorem load_map_agrees_with_get (c : Codec T) (log : Log) (key : String)
    (hk : validate_key key = .ok key)
    (m : List (String × T)) (h : load_map c log = .ok m) :
    get c log key = .ok (mapLookup key m) := by
  simp only [get, hk]
  have h' : scanLines (loadStep c) 0 [] log = .ok m := h
  have hsim := loadScan_getScan c key log 0 [] m h'
  simpa [mapLookup] using hsim

/-- Witness for C8: after `set k true; set j false; unset k`, `get k`
returns the loaded map's (absent) entry for `k`. -/
theorem load_map_agrees_with_get_witness :
    get boolCodec ["k,true", "j,false", "k,null"] "k" = .ok none := by
  have h := load_map_agrees_with_get boolCodec ["k,true", "j,false", "k,null"] "k"
    (by decide) [("j", false)] (by decide)
  simpa [mapLookup] using h

/-- Counterexample to claim C9: a log holding a record whose value text
fails to decode does NOT make every scanning operation fail: `contains`
never decodes value texts and returns a complete answer (here `true`)
on the very log on which `load_map` fails with the decode error. -/
theorem contains_succeeds_on_undecodable :
    boolCodec.dec "zzz" = .error "invalid value: zzz" ∧
    contains ["k,zzz"] "k" = .ok true ∧
    load_map boolCodec ["k,zzz"] = .error (Error.Read "invalid value: zzz") :=
  ⟨by decide, by decide, by decide⟩

/-- Amended claim C9: on a log whose lines all split, `contains` always
returns a complete result; `load_map` returns a complete result or a read
error; and a successful `load_map` (resp. `get`) decoded every record
(resp. every record of the queried key) of the full log — so a record
with undecodable value text makes `load_map` fail, and makes `get` fail
when its key is the queried one, while `contains` still succeeds. -/
theorem scan_decode_errors (c : Codec T) (log : Log) (key : String)
    (hk : validate_key key = .ok key)
    (hsplit : ∀ line ∈ log, (splitFirstComma line.data).isSome) :
    (∃ b, contains log key = .ok b) ∧
    ((∃ m, load_map c log = .ok m) ∨ (∃ s, load_map c log = .error (Error.Read s))) ∧
    (∀ m, load_map c log = .ok m →
      ∀ line ∈ log, ∀ kcs vcs, splitFirstComma line.data = some (kcs, vcs) →
        ∃ x, decodeOption c.dec (String.mk vcs) = .ok x) ∧
    (∀ r, get c log key = .ok r →
      ∀ line ∈ log, ∀ kcs vcs, splitFirstComma line.data = some (kcs, vcs) →
        String.mk kcs = key → ∃ x, decodeOption c.dec (String.mk vcs) = .ok x) := by
  refine ⟨?_, ?_, ?_, ?_⟩
  · simpa only [contains, hk] using containsScan_ok key log 0 false hsplit
  · simpa only [load_map] using loadScan_ok_or_read c log 0 [] hsplit
  · intro m h
    exact loadScan_decodes c log 0 [] m h
  · intro r h
    simp only [get, hk] at h
    exact getScan_decodes c key log 0 none r h

/-- Witness for C9's amended claim on the log of the counterexample. -/
theorem scan_decode_errors_witness :
    ∃ b, contains ["k,zzz"] "k" = .ok b :=
  (scan_decode_errors boolCodec ["k,zzz"] "k" (by decide) (by decide)).1

/-- Claim C10: `get` decodes only records of the queried key: on any log
whose lines all split and whose records for the queried key all decode,
`get` succeeds — whatever the value texts of other keys' records are. -/
theorem get_ignores_other_keys (c : Codec T) (log : Log) (key : String)
    (hk : validate_key key = .ok key)
    (hsplit : ∀ line ∈ log, (splitFirstComma line.data).isSome)
    (hdec : ∀ line ∈ log, ∀ kcs vcs, splitFirstComma line.data = some (kcs, vcs) →
      String.mk kcs = key → ∃ x, decodeOption c.dec (String.mk vcs) = .ok x) :
    ∃ r, get c log key = .ok r := by
  simpa only [get, hk] using getScan_ok c key log 0 none hsplit hdec

/-- Witness for C10: `get k` succeeds on a log whose record under the
other key `a` carries the undecodable value text `zzz`. -/
theorem get_ignores_other_keys_witness :
    (∃ r, get boolCodec ["a,zzz", "k,true"] "k" = .ok r) ∧
    boolCodec.dec "zzz" = .error "invalid value: zzz" := by
  refine ⟨?_, by decide⟩
  refine get_ignores_other_keys boolCodec ["a,zzz", "k,true"] "k" (by decide) (by decide) ?_
  intro line hline kcs vcs hkv hkey
  rcases List.mem_cons.mp hline with rfl | hline2
  · have hcomp : splitFirstComma ("a,zzz" : String).data = some (['a'], ['z', 'z', 'z']) := by
      decide
    have heq := hcomp.symm.trans hkv
    simp only [Option.some.injEq, Prod.mk.injEq] at heq
    rw [← heq.1] at hkey
    exact absurd hkey (by decide)
  · rcases List.mem_cons.mp hline2 with rfl | h3
    · have hcomp : splitFirstComma ("k,true" : String).data =
          some (['k'], ['t', 'r', 'u', 'e']) := by decide
      have heq := hcomp.symm.trans hkv
      simp only [Option.some.injEq, Prod.mk.injEq] at heq
      refine ⟨some true, ?_⟩
      rw [← heq.2]
      decide
    · exact absurd h3 (by simp)

end Kv
